import Mathlib

/-!
Verification of the birthdays-report core of the yandex-academy-task
repository (src/application/handlers/get_birthdays_handler.py and its
orchestration in src/application/service.py).

Python dictionaries are modelled as association lists (`List (α × β)`)
with insertion-ordered keys: `alistGet` returns the value at the first
matching key, `alistSet` replaces the value at the first matching key or
appends a fresh binding at the end, exactly as Python dict lookup and
assignment behave on dicts whose keys are unique.
-/

namespace Birthdays

/-- First-match lookup in an association list: Python `d[k]` / `d.get(k)`. -/
def alistGet {α β : Type} [DecidableEq α] : List (α × β) → α → Option β
  | [], _ => none
  | (k, v) :: t, a => if k = a then some v else alistGet t a

/-- Python `d[k] = v`: replace the first binding of `k`, or append `(k, v)`
if `k` is absent. -/
def alistSet {α β : Type} [DecidableEq α] : List (α × β) → α → β → List (α × β)
  | [], a, b => [(a, b)]
  | (k, v) :: t, a, b => if k = a then (a, b) :: t else (k, v) :: alistSet t a b

/-- Removal of the first occurrence of an entry, used only in proofs
relating association lists with the same lookup function. -/
def eraseFirst {α β : Type} [DecidableEq α] [DecidableEq β] :
    List (α × β) → (α × β) → List (α × β)
  | [], _ => []
  | x :: t, p => if x = p then t else x :: eraseFirst t p

/-- A calendar date as stored in mongo and handed to the handler
(`citizen['birth_date']` is a Python `datetime` value; the handler only
reads its `.month` attribute). -/
structure Date where
  year : Nat
  month : Nat
  day : Nat
deriving DecidableEq, Repr

/-- Python's `datetime` type guarantees the month is between 1 and 12;
the Lean `Date` carries no such proof, so theorems that depend on it take
this predicate as a hypothesis. -/
def Date.monthValid (d : Date) : Prop := 1 ≤ d.month ∧ d.month ≤ 12

instance (d : Date) : Decidable d.monthValid := by
  unfold Date.monthValid; infer_instance

/-- A resident record as returned by the dataset read, projected to the
fields the handler uses (`citizen_id` is kept for the data model; the
aggregation reads only `birth_date` and `relatives`). -/
structure Citizen where
  citizen_id : Int
  birth_date : Date
  relatives : List Int
deriving DecidableEq, Repr

/-- One `{'citizen_id': ..., 'presents': ...}` entry of the response. -/
structure GiftPair where
  citizen_id : Int
  presents : Nat
deriving DecidableEq, Repr

/-- The raw aggregation state: `defaultdict(lambda: defaultdict(int))`,
month ↦ (relative_id ↦ count). -/
abbrev BData := List (Nat × List (Int × Nat))

/-- The normalized representation: the `months` dict of
`_get_birthdays_representation`, month-string ↦ list of gift pairs.
(The handler wraps it as `{'data': months}`; the wrapper is left
implicit and this list is the `data` field.) -/
abbrev Rep := List (String × List GiftPair)

/-- `birthdays_data[month][relative_id] += 1` on the inner
`defaultdict(int)`: a missing key reads as 0. -/
def incrInner (m : List (Int × Nat)) (rid : Int) : List (Int × Nat) :=
  alistSet m rid ((alistGet m rid).getD 0 + 1)

/-- `birthdays_data[month][relative_id] += 1` on the outer
`defaultdict(lambda: defaultdict(int))`: a missing month reads as the
empty inner dict. -/
def incrOuter (m : BData) (month : Nat) (rid : Int) : BData :=
  alistSet m month (incrInner ((alistGet m month).getD []) rid)

/-- `_get_birthdays_data(citizens)`: the nested for-loop
`for citizen in citizens: for relative_id in citizen['relatives']:
birthdays_data[citizen['birth_date'].month][relative_id] += 1`. -/
def get_birthdays_data (citizens : List Citizen) : BData :=
  citizens.foldl
    (fun acc c => c.relatives.foldl (fun a rid => incrOuter a c.birth_date.month rid) acc)
    []

/-- `months = {str(i): [] for i in range(1, 13)}`. -/
def months0 : Rep := (List.range 12).map (fun i => (toString (i + 1), []))

/-- `_get_birthdays_representation(birthdays_data)`: overwrite the month
keys that occur in the raw data with their `{citizen_id, presents}`
pair lists (this is the `months` dict; the Python function returns it
wrapped as `{'data': months}`). -/
def get_birthdays_representation (bd : BData) : Rep :=
  bd.foldl
    (fun months p =>
      alistSet months (toString p.1) (p.2.map (fun q => GiftPair.mk q.1 q.2)))
    months0

/-- The error taxonomy of the spec: `NotFound` (dataset absent),
`LockTimeout` (lease not acquired in time), `StoreUnavailable`
(backing store failure). The sequential embedding only raises
`NotFound`; the other kinds exist so the taxonomy is distinguishable. -/
inductive Err where
  | NotFound
  | LockTimeout
  | StoreUnavailable
deriving DecidableEq, Repr

/-- Lock events emitted by the `with lock(...)` context managers:
resource name, holder id, ttl (`expire=`) and acquisition timeout. -/
inductive Ev where
  | acquire (name : String) (holder : String) (ttl : Nat) (timeout : Nat)
  | release (name : String)
deriving DecidableEq, Repr

/-- The mongo database as seen by this handler: the `imports` collection
(import_id ↦ citizens) and the `birthdays` collection, a plain list of
inserted records `{'import_id': ..., 'data': ...}` in insertion order. -/
structure DB where
  imports : List (Int × List Citizen)
  birthdays : List (Int × Rep)
deriving DecidableEq, Repr

instance {ε α : Type} [DecidableEq ε] [DecidableEq α] : DecidableEq (Except ε α) := fun a b =>
  match a, b with
  | Except.error x, Except.error y => decidable_of_iff (x = y) (by simp)
  | Except.error _, Except.ok _ => isFalse (by simp)
  | Except.ok _, Except.error _ => isFalse (by simp)
  | Except.ok x, Except.ok y => decidable_of_iff (x = y) (by simp)

/-- Result of one handler execution: the returned value or raised error,
the database afterwards, and the lock events in order. -/
structure Outcome (α : Type) where
  result : Except Err α
  db : DB
  events : List Ev
deriving DecidableEq, Repr

/-- A `with lock(name, holder, expire=ttl, timeout=timeout):` block: the
lease is acquired before the body and released after it on every exit
path, normal return and raised exception alike. -/
def withLock {α : Type} (name holder : String) (ttl timeout : Nat)
    (body : DB → Outcome α) (db : DB) : Outcome α :=
  let o := body db
  ⟨o.result, o.db, Ev.acquire name holder ttl timeout :: (o.events ++ [Ev.release name])⟩

/-- `_get_cached_birthdays(import_id, db)`: point lookup in the
`birthdays` collection, projecting away `_id` and `import_id`
(mongo `find_one` returns the first matching document, `None` if absent). -/
def _get_cached_birthdays (import_id : Int) (db : DB) : Option Rep :=
  alistGet db.birthdays import_id

/-- `_cache_birthdays_data(import_id, birthdays_data, db)`: `insert_one`
appends the record `{'import_id': import_id, 'data': ...}` to the
`birthdays` collection. -/
def _cache_birthdays_data (import_id : Int) (birthdays_data : Rep) (db : DB) : DB :=
  { db with birthdays := db.birthdays ++ [(import_id, birthdays_data)] }

/-- Modelled from the spec: `shared.get_citizens` lives in
`src/application/handlers/shared.py`, which is not in the repository.
Per the spec, the DatasetReader returns the resident records of the
dataset projected to the requested fields, or fails with `NotFound`
if no dataset with that identifier exists. -/
def get_citizens (import_id : Int) (db : DB) : Except Err (List Citizen) :=
  match alistGet db.imports import_id with
  | some citizens => Except.ok citizens
  | none => Except.error Err.NotFound

/-- The body of `get_birthdays` inside the two lock context managers:
check the cache, on a hit return it with 201; otherwise read the
dataset, aggregate, normalize, insert into the cache, return with 201.
A `NotFound` from the dataset read propagates unchanged. -/
def get_birthdays_body (import_id : Int) (db : DB) : Outcome (Rep × Nat) :=
  match _get_cached_birthdays import_id db with
  | some cached => ⟨Except.ok (cached, 201), db, []⟩
  | none =>
    match get_citizens import_id db with
    | Except.error e => ⟨Except.error e, db, []⟩
    | Except.ok citizens =>
      let birthdays_data := get_birthdays_data citizens
      let rep := get_birthdays_representation birthdays_data
      ⟨Except.ok (rep, 201), _cache_birthdays_data import_id rep db, []⟩

/-- `get_birthdays(import_id, db, lock)`: the two nested
`with lock(str(import_id), pid, expire=60, timeout=10)` and
`with lock(f'birthdays_{import_id}', pid, expire=60, timeout=10)`
blocks around the body. `pid` stands for `str(os.getpid())`. -/
def get_birthdays (import_id : Int) (pid : String) (db : DB) : Outcome (Rep × Nat) :=
  withLock (toString import_id) pid 60 10
    (fun d =>
      withLock ("birthdays_" ++ toString import_id) pid 60 10
        (fun d2 => get_birthdays_body import_id d2) d)
    db

/-- Sequential repetition of `get_birthdays`: the list of results of `n`
calls in order, and the database after the last one. -/
def runGetBirthdays (import_id : Int) (pid : String) :
    Nat → DB → List (Except Err (Rep × Nat)) × DB
  | 0, db => ([], db)
  | n + 1, db =>
    let o := get_birthdays import_id pid db
    let r := runGetBirthdays import_id pid n o.db
    (o.result :: r.1, r.2)

/-- The spec's counting rule, written from the spec's words: for each
resident, for each entry in its `relatives` collection (duplicates
counted separately), the pair `(month(resident.birth_date), relative_id)`
is incremented by 1; so the count for `(m, rid)` is the total number of
occurrences of `rid` in the relatives of residents born in month `m`. -/
def presentsSpec (citizens : List Citizen) (m : Nat) (rid : Int) : Nat :=
  (citizens.map
    (fun c => if c.birth_date.month = m then c.relatives.count rid else 0)).sum

/-- Lookup of the count for `(m, rid)` in the raw aggregation state,
reading missing keys as the defaultdicts do. -/
def innerGet (bd : BData) (m : Nat) (rid : Int) : Option Nat :=
  alistGet ((alistGet bd m).getD []) rid

/-- Addition of `k` increments to an optional counter: `none` stays
`none` when `k = 0`, otherwise the missing key is created at 0 first. -/
def optAdd (o : Option Nat) (k : Nat) : Option Nat :=
  if k = 0 then o else some (o.getD 0 + k)

/-- Every resident of the list has a birth month between 1 and 12
(guaranteed in Python by the `datetime` type). -/
def monthsValid (citizens : List Citizen) : Prop :=
  ∀ c ∈ citizens, 1 ≤ c.birth_date.month ∧ c.birth_date.month ≤ 12

instance (citizens : List Citizen) : Decidable (monthsValid citizens) := by
  unfold monthsValid; infer_instance

/-- Every dataset stored in the `imports` collection has residents with
valid birth months. -/
def importsValid (db : DB) : Prop :=
  ∀ p ∈ db.imports, monthsValid p.2

instance (db : DB) : Decidable (importsValid db) := by
  unfold importsValid; infer_instance

/-- The complete normalized twelve-month shape: the record's keys are
exactly the strings "1" through "12", in that order. -/
def normalizedRep (r : Rep) : Prop :=
  r.map Prod.fst =
    ["1", "2", "3", "4", "5", "6", "7", "8", "9", "10", "11", "12"]

instance (r : Rep) : Decidable (normalizedRep r) := by
  unfold normalizedRep; infer_instance

section AlistLemmas

variable {α β : Type} [DecidableEq α]

theorem alistGet_alistSet (l : List (α × β)) (a c : α) (b : β) :
    alistGet (alistSet l a b) c = if a = c then some b else alistGet l c := by
  induction l with
  | nil => simp [alistGet, alistSet]
  | cons hd t ih =>
    obtain ⟨k, v⟩ := hd
    by_cases hka : k = a
    · subst hka
      by_cases hkc : k = c <;> simp [alistSet, alistGet, hkc]
    · by_cases hkc : k = c
      · subst hkc
        have hac : ¬a = k := fun h => hka h.symm
        simp [alistSet, if_neg hka, alistGet, hac]
      · simp [alistSet, if_neg hka, alistGet, if_neg hkc, ih]

theorem alistGet_eq_none_iff (l : List (α × β)) (a : α) :
    alistGet l a = none ↔ a ∉ l.map Prod.fst := by
  induction l with
  | nil => simp [alistGet]
  | cons hd t ih =>
    obtain ⟨k, v⟩ := hd
    by_cases hk : k = a
    · subst hk; simp [alistGet]
    · have hak : ¬a = k := fun h => hk h.symm
      simp [alistGet, if_neg hk, ih, hak]

theorem mem_of_alistGet_eq_some {l : List (α × β)} {a : α} {b : β}
    (h : alistGet l a = some b) : (a, b) ∈ l := by
  induction l with
  | nil => simp [alistGet] at h
  | cons hd t ih =>
    obtain ⟨k, v⟩ := hd
    by_cases hk : k = a
    · subst hk
      simp [alistGet] at h
      simp [h]
    · simp only [alistGet, if_neg hk] at h
      exact List.mem_cons_of_mem _ (ih h)

theorem eq_nil_of_alistGet_eq_none (l : List (α × β))
    (h : ∀ a, alistGet l a = none) : l = [] := by
  cases l with
  | nil => rfl
  | cons hd t =>
    have := h hd.1
    simp [alistGet] at this

theorem alistGet_append_right {l : List (α × β)} {a : α} (l2 : List (α × β))
    (h : alistGet l a = none) : alistGet (l ++ l2) a = alistGet l2 a := by
  induction l with
  | nil => simp
  | cons hd t ih =>
    obtain ⟨k, v⟩ := hd
    by_cases hk : k = a
    · subst hk; simp [alistGet] at h
    · simp only [alistGet, if_neg hk] at h
      simpa [alistGet, if_neg hk] using ih h

theorem map_fst_alistSet (l : List (α × β)) (a : α) (b : β) :
    (alistSet l a b).map Prod.fst =
      if a ∈ l.map Prod.fst then l.map Prod.fst else l.map Prod.fst ++ [a] := by
  induction l with
  | nil => simp [alistSet]
  | cons hd t ih =>
    obtain ⟨k, v⟩ := hd
    by_cases hk : k = a
    · subst hk; simp [alistSet]
    · simp only [alistSet, if_neg hk, List.map_cons]
      rw [ih]
      have hak : ¬a = k := fun h => hk h.symm
      by_cases hm : a ∈ t.map Prod.fst <;> simp [hm, hak]

theorem nodup_keys_alistSet {l : List (α × β)} (a : α) (b : β)
    (h : (l.map Prod.fst).Nodup) : ((alistSet l a b).map Prod.fst).Nodup := by
  rw [map_fst_alistSet]
  by_cases hm : a ∈ l.map Prod.fst
  · simpa [hm] using h
  · simp only [hm, if_false]
    simp [List.nodup_append, h, hm]

theorem mem_alistSet {l : List (α × β)} {a : α} {b : β} {p : α × β}
    (h : p ∈ alistSet l a b) : p ∈ l ∨ p = (a, b) := by
  induction l with
  | nil => simpa [alistSet] using h
  | cons hd t ih =>
    obtain ⟨k, v⟩ := hd
    by_cases hk : k = a
    · subst hk
      rcases (by simpa [alistSet] using h : p = (k, b) ∨ p ∈ t) with h1 | h1
      · exact Or.inr h1
      · exact Or.inl (List.mem_cons_of_mem _ h1)
    · rcases (by simpa [alistSet, if_neg hk] using h : p = (k, v) ∨ p ∈ alistSet t a b)
        with h1 | h1
      · exact Or.inl (by simp [h1])
      · rcases ih h1 with h2 | h2
        · exact Or.inl (List.mem_cons_of_mem _ h2)
        · exact Or.inr h2

theorem eraseFirst_sublist [DecidableEq β] (l : List (α × β)) (p : α × β) :
    (eraseFirst l p).Sublist l := by
  induction l with
  | nil => simp [eraseFirst]
  | cons hd t ih =>
    by_cases hh : hd = p
    · simp [eraseFirst, hh]
    · simpa [eraseFirst, hh] using ih.cons₂ hd

theorem perm_cons_eraseFirst [DecidableEq β] {l : List (α × β)} {p : α × β}
    (h : p ∈ l) : l.Perm (p :: eraseFirst l p) := by
  induction l with
  | nil => simp at h
  | cons hd t ih =>
    by_cases hh : hd = p
    · simp [eraseFirst, hh]
    · have hmt : p ∈ t := by
        rcases List.mem_cons.mp h with h1 | h1
        · exact absurd h1.symm hh
        · exact h1
      have h1 : (hd :: t : List (α × β)).Perm (hd :: p :: eraseFirst t p) :=
        (ih hmt).cons hd
      have h2 : (hd :: p :: eraseFirst t p : List (α × β)).Perm
          (p :: hd :: eraseFirst t p) := List.Perm.swap p hd _
      rw [eraseFirst, if_neg hh]
      exact h1.trans h2

theorem alistGet_eraseFirst_of_nodup_keys {l : List (α × β)} [DecidableEq β]
    {a : α} {b : β} (hn : (l.map Prod.fst).Nodup) (hmem : (a, b) ∈ l) (c : α) :
    alistGet (eraseFirst l (a, b)) c = if a = c then none else alistGet l c := by
  induction l with
  | nil => simp at hmem
  | cons hd t ih =>
    obtain ⟨k, v⟩ := hd
    simp only [List.map_cons, List.nodup_cons] at hn
    by_cases hhd : ((k, v) : α × β) = (a, b)
    · have hka : k = a := congrArg Prod.fst hhd
      rw [eraseFirst, if_pos hhd]
      by_cases hac : a = c
      · rw [if_pos hac, alistGet_eq_none_iff, ← hac, ← hka]
        exact hn.1
      · have hkc : ¬k = c := fun hh => hac (hka ▸ hh)
        simp [alistGet, if_neg hkc, if_neg hac]
    · have hmt : (a, b) ∈ t := by
        rcases List.mem_cons.mp hmem with hh | hh
        · exact absurd hh.symm hhd
        · exact hh
      have hka : ¬k = a := by
        intro hh
        exact hn.1 (hh ▸ List.mem_map_of_mem Prod.fst hmt)
      rw [eraseFirst, if_neg hhd]
      by_cases hkc : k = c
      · have hac : ¬a = c := fun hh => hka (by rw [hkc, hh])
        simp [alistGet, hkc, if_neg hac]
      · simp [alistGet, if_neg hkc, ih hn.2 hmt]

theorem perm_of_nodup_keys_alistGet_eq {l₁ l₂ : List (α × β)} [DecidableEq β]
    (h₁ : (l₁.map Prod.fst).Nodup) (h₂ : (l₂.map Prod.fst).Nodup)
    (h : ∀ a, alistGet l₁ a = alistGet l₂ a) : l₁.Perm l₂ := by
  induction l₁ generalizing l₂ with
  | nil =>
    have : l₂ = [] := eq_nil_of_alistGet_eq_none l₂ (fun a => (h a).symm)
    rw [this]
  | cons hd t ih =>
    obtain ⟨a, b⟩ := hd
    simp only [List.map_cons, List.nodup_cons] at h₁
    have hget : alistGet l₂ a = some b := by
      rw [← h a]
      simp [alistGet]
    have hmem : (a, b) ∈ l₂ := mem_of_alistGet_eq_some hget
    have hperm2 : l₂.Perm ((a, b) :: eraseFirst l₂ (a, b)) := perm_cons_eraseFirst hmem
    have herasekeys : ((eraseFirst l₂ (a, b)).map Prod.fst).Nodup :=
      h₂.sublist (List.Sublist.map Prod.fst (eraseFirst_sublist l₂ (a, b)))
    have htail : t.Perm (eraseFirst l₂ (a, b)) := by
      apply ih h₁.2 herasekeys
      intro c
      rw [alistGet_eraseFirst_of_nodup_keys h₂ hmem c]
      by_cases hac : a = c
      · rw [if_pos hac, alistGet_eq_none_iff, ← hac]
        exact h₁.1
      · have hc := h c
        simp only [alistGet, if_neg hac] at hc
        rw [if_neg hac, ← hc]
    exact (htail.cons (a, b)).trans hperm2.symm

end AlistLemmas

section AggregationLemmas

theorem optAdd_zero (o : Option Nat) : optAdd o 0 = o := by
  simp [optAdd]

theorem optAdd_optAdd (o : Option Nat) (j k : Nat) :
    optAdd (optAdd o j) k = optAdd o (j + k) := by
  by_cases hj : j = 0
  · subst hj; simp [optAdd]
  · by_cases hk : k = 0
    · subst hk; simp [optAdd]
    · simp [optAdd, hj, hk, Nat.add_assoc]

theorem innerGet_incrOuter (bd : BData) (mo : Nat) (r : Int) (m : Nat) (rid : Int) :
    innerGet (incrOuter bd mo r) m rid =
      if mo = m ∧ r = rid then optAdd (innerGet bd m rid) 1
      else innerGet bd m rid := by
  unfold innerGet incrOuter incrInner optAdd
  rw [alistGet_alistSet]
  by_cases hm : mo = m
  · subst hm
    rw [if_pos rfl]
    simp only [Option.getD_some]
    rw [alistGet_alistSet]
    by_cases hr : r = rid
    · subst hr; simp
    · simp [hr]
  · rw [if_neg hm]
    simp [hm]

theorem innerGet_relFold (rel : List Int) (mo : Nat) (bd : BData) (m : Nat) (rid : Int) :
    innerGet (rel.foldl (fun a r => incrOuter a mo r) bd) m rid =
      if mo = m then optAdd (innerGet bd m rid) (rel.count rid)
      else innerGet bd m rid := by
  induction rel generalizing bd with
  | nil => simp [optAdd_zero]
  | cons r rs ih =>
    rw [List.foldl_cons, ih]
    by_cases hm : mo = m
    · rw [if_pos hm, if_pos hm, innerGet_incrOuter]
      by_cases hr : r = rid
      · rw [if_pos ⟨hm, hr⟩, optAdd_optAdd, List.count_cons]
        have : (r == rid) = true := by simp [hr]
        simp [this, Nat.add_comm]
      · have hcond : ¬(mo = m ∧ r = rid) := fun hc => hr hc.2
        rw [if_neg hcond, List.count_cons]
        have : (r == rid) = false := by simp [hr]
        simp [this]
    · rw [if_neg hm, if_neg hm, innerGet_incrOuter,
        if_neg (fun hc : mo = m ∧ r = rid => hm hc.1)]

theorem innerGet_citizensFold (cs : List Citizen) (bd : BData) (m : Nat) (rid : Int) :
    innerGet
      (cs.foldl
        (fun acc c => c.relatives.foldl (fun a r => incrOuter a c.birth_date.month r) acc)
        bd) m rid =
      optAdd (innerGet bd m rid) (presentsSpec cs m rid) := by
  induction cs generalizing bd with
  | nil => simp [presentsSpec, optAdd_zero]
  | cons c cs ih =>
    rw [List.foldl_cons, ih, innerGet_relFold]
    by_cases hm : c.birth_date.month = m
    · rw [if_pos hm, optAdd_optAdd]
      simp [presentsSpec, hm]
    · rw [if_neg hm]
      simp [presentsSpec, hm]

theorem innerGet_get_birthdays_data (cs : List Citizen) (m : Nat) (rid : Int) :
    innerGet (get_birthdays_data cs) m rid =
      if presentsSpec cs m rid = 0 then none else some (presentsSpec cs m rid) := by
  rw [get_birthdays_data, innerGet_citizensFold]
  have hnone : innerGet [] m rid = none := rfl
  rw [hnone]
  by_cases h : presentsSpec cs m rid = 0 <;> simp [optAdd, h]

theorem getD_innerGet_get_birthdays_data (cs : List Citizen) (m : Nat) (rid : Int) :
    (innerGet (get_birthdays_data cs) m rid).getD 0 = presentsSpec cs m rid := by
  rw [innerGet_get_birthdays_data]
  by_cases h : presentsSpec cs m rid = 0 <;> simp [h]

theorem presentsSpec_perm {cs cs' : List Citizen} (h : cs.Perm cs')
    (m : Nat) (rid : Int) : presentsSpec cs m rid = presentsSpec cs' m rid :=
  (h.map _).sum_eq

end AggregationLemmas

section StructureLemmas

/-- Structural well-formedness of the raw aggregation state: the outer
keys are distinct, every inner dict has distinct keys, and every inner
count is at least 1. -/
def BDataOK (bd : BData) : Prop :=
  (bd.map Prod.fst).Nodup ∧
    ∀ p ∈ bd, ((p.2.map Prod.fst).Nodup ∧ ∀ q ∈ p.2, 1 ≤ q.2)

theorem bdataOK_nil : BDataOK [] := by
  constructor
  · simp
  · intro p hp; simp at hp

theorem bdataOK_incrOuter {bd : BData} (h : BDataOK bd) (mo : Nat) (rid : Int) :
    BDataOK (incrOuter bd mo rid) := by
  obtain ⟨hout, hin⟩ := h
  have hold : ((((alistGet bd mo).getD []).map Prod.fst).Nodup ∧
      ∀ q ∈ (alistGet bd mo).getD [], 1 ≤ q.2) := by
    rcases hget : alistGet bd mo with _ | inner
    · constructor
      · simp
      · intro q hq; simp at hq
    · simpa using hin (mo, inner) (mem_of_alistGet_eq_some hget)
  constructor
  · exact nodup_keys_alistSet mo _ hout
  · intro p hp
    rcases mem_alistSet hp with hmem | heq
    · exact hin p hmem
    · subst heq
      constructor
      · exact nodup_keys_alistSet rid _ hold.1
      · intro q hq
        rcases mem_alistSet hq with hq2 | hq2
        · exact hold.2 q hq2
        · subst hq2
          exact Nat.le_add_left 1 _

theorem bdataOK_relFold {bd : BData} (h : BDataOK bd) (rel : List Int) (mo : Nat) :
    BDataOK (rel.foldl (fun a r => incrOuter a mo r) bd) := by
  induction rel generalizing bd with
  | nil => exact h
  | cons r rs ih => exact ih (bdataOK_incrOuter h mo r)

theorem bdataOK_citizensFold {bd : BData} (h : BDataOK bd) (cs : List Citizen) :
    BDataOK
      (cs.foldl
        (fun acc c => c.relatives.foldl (fun a r => incrOuter a c.birth_date.month r) acc)
        bd) := by
  induction cs generalizing bd with
  | nil => exact h
  | cons c cs ih => exact ih (bdataOK_relFold h c.relatives c.birth_date.month)

theorem bdataOK_get_birthdays_data (cs : List Citizen) :
    BDataOK (get_birthdays_data cs) :=
  bdataOK_citizensFold bdataOK_nil cs

theorem mem_keys_incrOuter {bd : BData} {mo m : Nat} {rid : Int}
    (h : m ∈ (incrOuter bd mo rid).map Prod.fst) :
    m ∈ bd.map Prod.fst ∨ m = mo := by
  unfold incrOuter at h
  rw [map_fst_alistSet] at h
  by_cases hmem : mo ∈ bd.map Prod.fst
  · rw [if_pos hmem] at h
    exact Or.inl h
  · rw [if_neg hmem] at h
    rcases List.mem_append.mp h with h1 | h1
    · exact Or.inl h1
    · exact Or.inr (by simpa using h1)

theorem mem_keys_relFold {bd : BData} {rel : List Int} {mo m : Nat}
    (h : m ∈ (rel.foldl (fun a r => incrOuter a mo r) bd).map Prod.fst) :
    m ∈ bd.map Prod.fst ∨ m = mo := by
  induction rel generalizing bd with
  | nil => exact Or.inl h
  | cons r rs ih =>
    rcases ih (by simpa using h) with h1 | h1
    · exact mem_keys_incrOuter h1
    · exact Or.inr h1

theorem mem_keys_citizensFold {bd : BData} {cs : List Citizen} {m : Nat}
    (h : m ∈ (cs.foldl
      (fun acc c => c.relatives.foldl (fun a r => incrOuter a c.birth_date.month r) acc)
      bd).map Prod.fst) :
    m ∈ bd.map Prod.fst ∨ ∃ c ∈ cs, c.birth_date.month = m := by
  induction cs generalizing bd with
  | nil => exact Or.inl h
  | cons c cs ih =>
    rcases ih (by simpa using h) with h1 | h1
    · rcases mem_keys_relFold h1 with h2 | h2
      · exact Or.inl h2
      · exact Or.inr ⟨c, List.mem_cons_self c cs, h2.symm⟩
    · obtain ⟨c2, hc2, hm2⟩ := h1
      exact Or.inr ⟨c2, List.mem_cons_of_mem c hc2, hm2⟩

theorem keys_get_birthdays_data_valid {cs : List Citizen} (hv : monthsValid cs) :
    ∀ p ∈ get_birthdays_data cs, 1 ≤ p.1 ∧ p.1 ≤ 12 := by
  intro p hp
  have hk : p.1 ∈ (get_birthdays_data cs).map Prod.fst :=
    List.mem_map_of_mem Prod.fst hp
  rw [get_birthdays_data] at hk
  rcases mem_keys_citizensFold hk with h1 | h1
  · simp at h1
  · obtain ⟨c, hc, hm⟩ := h1
    exact hm ▸ hv c hc

end StructureLemmas

section RepresentationLemmas

theorem toString_nat_inj_12 {m n : Nat} (hm1 : 1 ≤ m) (hm2 : m ≤ 12)
    (hn1 : 1 ≤ n) (hn2 : n ≤ 12) (h : toString m = toString n) : m = n := by
  interval_cases m <;> interval_cases n <;> revert h <;> decide

theorem keys_months0 :
    months0.map Prod.fst =
      ["1", "2", "3", "4", "5", "6", "7", "8", "9", "10", "11", "12"] := by
  decide

theorem mem_keys_months0 {m : Nat} (hm1 : 1 ≤ m) (hm2 : m ≤ 12) :
    toString m ∈ months0.map Prod.fst := by
  interval_cases m <;> decide

theorem alistGet_months0 {m : Nat} (hm1 : 1 ≤ m) (hm2 : m ≤ 12) :
    alistGet months0 (toString m) = some [] := by
  interval_cases m <;> decide

theorem rep_fold_get_of_ne (bd : BData) (M : Rep) (s : String)
    (h : ∀ p ∈ bd, toString p.1 ≠ s) :
    alistGet
      (bd.foldl
        (fun months p => alistSet months (toString p.1) (p.2.map (fun q => GiftPair.mk q.1 q.2)))
        M) s = alistGet M s := by
  induction bd generalizing M with
  | nil => rfl
  | cons p t ih =>
    rw [List.foldl_cons, ih _ (fun q hq => h q (List.mem_cons_of_mem p hq)),
      alistGet_alistSet, if_neg (h p (List.mem_cons_self p t))]

theorem rep_fold_get (bd : BData) (M : Rep) (m : Nat)
    (hnd : (bd.map Prod.fst).Nodup) (hkeys : ∀ p ∈ bd, 1 ≤ p.1 ∧ p.1 ≤ 12)
    (hm1 : 1 ≤ m) (hm2 : m ≤ 12) :
    alistGet
      (bd.foldl
        (fun months p => alistSet months (toString p.1) (p.2.map (fun q => GiftPair.mk q.1 q.2)))
        M) (toString m) =
      match alistGet bd m with
      | some inner => some (inner.map (fun q => GiftPair.mk q.1 q.2))
      | none => alistGet M (toString m) := by
  induction bd generalizing M with
  | nil => rfl
  | cons p t ih =>
    obtain ⟨k, inner⟩ := p
    simp only [List.map_cons, List.nodup_cons] at hnd
    have hk12 : 1 ≤ k ∧ k ≤ 12 := hkeys (k, inner) (List.mem_cons_self _ t)
    rw [List.foldl_cons]
    by_cases hkm : k = m
    · subst hkm
      have hne : ∀ q ∈ t, toString q.1 ≠ toString k := by
        intro q hq hc
        have hq12 := hkeys q (List.mem_cons_of_mem _ hq)
        have : q.1 = k := toString_nat_inj_12 hq12.1 hq12.2 hk12.1 hk12.2 hc
        exact hnd.1 (this ▸ List.mem_map_of_mem Prod.fst hq)
      rw [rep_fold_get_of_ne t _ (toString k) hne, alistGet_alistSet, if_pos rfl]
      simp [alistGet]
    · have hih := ih (alistSet M (toString k) (inner.map (fun q => GiftPair.mk q.1 q.2)))
        hnd.2 (fun q hq => hkeys q (List.mem_cons_of_mem _ hq))
      rw [hih]
      have hset : alistGet (alistSet M (toString k) (inner.map (fun q => GiftPair.mk q.1 q.2)))
          (toString m) = alistGet M (toString m) := by
        rw [alistGet_alistSet, if_neg]
        intro hc
        exact hkm (toString_nat_inj_12 hk12.1 hk12.2 hm1 hm2 hc)
      have hbd : alistGet ((k, inner) :: t) m = alistGet t m := by
        simp [alistGet, hkm]
      rw [hbd]
      rcases alistGet t m with _ | i
      · simpa using hset
      · rfl

theorem alistGet_rep {cs : List Citizen} (hv : monthsValid cs) {m : Nat}
    (hm1 : 1 ≤ m) (hm2 : m ≤ 12) :
    alistGet (get_birthdays_representation (get_birthdays_data cs)) (toString m) =
      some (((alistGet (get_birthdays_data cs) m).getD []).map
        (fun q => GiftPair.mk q.1 q.2)) := by
  rw [get_birthdays_representation,
    rep_fold_get _ _ m (bdataOK_get_birthdays_data cs).1
      (keys_get_birthdays_data_valid hv) hm1 hm2]
  rcases hget : alistGet (get_birthdays_data cs) m with _ | inner
  · rw [alistGet_months0 hm1 hm2]
    simp
  · simp

theorem rep_fold_keys (bd : BData) (M : Rep)
    (h : ∀ p ∈ bd, toString p.1 ∈ M.map Prod.fst) :
    (bd.foldl
      (fun months p => alistSet months (toString p.1) (p.2.map (fun q => GiftPair.mk q.1 q.2)))
      M).map Prod.fst = M.map Prod.fst := by
  induction bd generalizing M with
  | nil => rfl
  | cons p t ih =>
    rw [List.foldl_cons]
    have hkey : (alistSet M (toString p.1) (p.2.map (fun q => GiftPair.mk q.1 q.2))).map
        Prod.fst = M.map Prod.fst := by
      rw [map_fst_alistSet, if_pos (h p (List.mem_cons_self p t))]
    rw [ih _ (fun q hq => hkey ▸ h q (List.mem_cons_of_mem p hq)), hkey]

theorem keys_rep {cs : List Citizen} (hv : monthsValid cs) :
    (get_birthdays_representation (get_birthdays_data cs)).map Prod.fst =
      ["1", "2", "3", "4", "5", "6", "7", "8", "9", "10", "11", "12"] := by
  rw [get_birthdays_representation, rep_fold_keys, keys_months0]
  intro p hp
  have h12 := keys_get_birthdays_data_valid hv p hp
  exact mem_keys_months0 h12.1 h12.2

theorem mem_rep_fold {bd : BData} {M : Rep} {p : String × List GiftPair}
    (h : p ∈ bd.foldl
      (fun months q => alistSet months (toString q.1) (q.2.map (fun r => GiftPair.mk r.1 r.2)))
      M) :
    p ∈ M ∨ ∃ q ∈ bd, p = (toString q.1, q.2.map (fun r => GiftPair.mk r.1 r.2)) := by
  induction bd generalizing M with
  | nil => exact Or.inl h
  | cons q t ih =>
    rcases ih (by simpa using h) with h1 | h1
    · rcases mem_alistSet h1 with h2 | h2
      · exact Or.inl h2
      · exact Or.inr ⟨q, List.mem_cons_self q t, h2⟩
    · obtain ⟨q2, hq2, hp2⟩ := h1
      exact Or.inr ⟨q2, List.mem_cons_of_mem q hq2, hp2⟩

end RepresentationLemmas

section ServiceLemmas

theorem get_birthdays_result_eq (import_id : Int) (pid : String) (db : DB) :
    (get_birthdays import_id pid db).result =
      (get_birthdays_body import_id db).result := rfl

theorem get_birthdays_db_eq (import_id : Int) (pid : String) (db : DB) :
    (get_birthdays import_id pid db).db = (get_birthdays_body import_id db).db := rfl

theorem get_birthdays_body_events (import_id : Int) (db : DB) :
    (get_birthdays_body import_id db).events = [] := by
  rcases hx : _get_cached_birthdays import_id db with _ | v
  · rcases hy : get_citizens import_id db with e | cs <;>
      simp [get_birthdays_body, hx, hy]
  · simp [get_birthdays_body, hx]

theorem get_birthdays_cache_hit {import_id : Int} {db : DB} {v : Rep}
    (h : _get_cached_birthdays import_id db = some v) (pid : String) :
    (get_birthdays import_id pid db).result = Except.ok (v, 201) ∧
      (get_birthdays import_id pid db).db = db := by
  rw [get_birthdays_result_eq, get_birthdays_db_eq]
  unfold get_birthdays_body
  rw [h]
  exact ⟨rfl, rfl⟩

theorem get_birthdays_fresh {import_id : Int} {db : DB} {cs : List Citizen}
    (hc : _get_cached_birthdays import_id db = none)
    (hi : alistGet db.imports import_id = some cs) (pid : String) :
    (get_birthdays import_id pid db).result =
      Except.ok (get_birthdays_representation (get_birthdays_data cs), 201) ∧
    (get_birthdays import_id pid db).db =
      _cache_birthdays_data import_id
        (get_birthdays_representation (get_birthdays_data cs)) db := by
  rw [get_birthdays_result_eq, get_birthdays_db_eq]
  unfold get_birthdays_body get_citizens
  rw [hc, hi]
  exact ⟨rfl, rfl⟩

theorem get_birthdays_cached_after {import_id : Int} {db : DB} {cs : List Citizen}
    (h : alistGet db.imports import_id = some cs) (pid : String) :
    ∃ v, (get_birthdays import_id pid db).result = Except.ok (v, 201) ∧
      _get_cached_birthdays import_id (get_birthdays import_id pid db).db = some v := by
  rcases hc : _get_cached_birthdays import_id db with _ | v
  · obtain ⟨hr, hd⟩ := get_birthdays_fresh hc h pid
    refine ⟨get_birthdays_representation (get_birthdays_data cs), hr, ?_⟩
    rw [hd]
    unfold _cache_birthdays_data _get_cached_birthdays
    unfold _get_cached_birthdays at hc
    simp only []
    rw [alistGet_append_right _ hc]
    simp [alistGet]
  · obtain ⟨hr, hd⟩ := get_birthdays_cache_hit hc pid
    exact ⟨v, hr, by rw [hd]; exact hc⟩

theorem get_birthdays_db_cases (import_id : Int) (pid : String) (db : DB) :
    (get_birthdays import_id pid db).db = db ∨
    ∃ cs, alistGet db.imports import_id = some cs ∧
      (get_birthdays import_id pid db).db =
        _cache_birthdays_data import_id
          (get_birthdays_representation (get_birthdays_data cs)) db := by
  rcases hc : _get_cached_birthdays import_id db with _ | v
  · rcases hi : alistGet db.imports import_id with _ | cs
    · left
      rw [get_birthdays_db_eq]
      unfold get_birthdays_body get_citizens
      rw [hc, hi]
    · exact Or.inr ⟨cs, by simp [hi], (get_birthdays_fresh hc hi pid).2⟩
  · exact Or.inl (get_birthdays_cache_hit hc pid).2

theorem runGetBirthdays_cached {import_id : Int} {db : DB} {v : Rep}
    (h : _get_cached_birthdays import_id db = some v) (pid : String) (n : Nat) :
    runGetBirthdays import_id pid n db =
      (List.replicate n (Except.ok (v, 201)), db) := by
  induction n with
  | zero => rfl
  | succ n ih =>
    obtain ⟨hr, hd⟩ := get_birthdays_cache_hit h pid
    rw [runGetBirthdays]
    simp only [hr, hd, ih, List.replicate_succ]

end ServiceLemmas

section MoreHelpers

theorem alistGet_eq_some_of_mem_of_nodup {α β : Type} [DecidableEq α]
    {l : List (α × β)} {a : α} {b : β}
    (hn : (l.map Prod.fst).Nodup) (h : (a, b) ∈ l) : alistGet l a = some b := by
  induction l with
  | nil => simp at h
  | cons hd t ih =>
    obtain ⟨k, v⟩ := hd
    simp only [List.map_cons, List.nodup_cons] at hn
    rcases List.mem_cons.mp h with h1 | h1
    · obtain ⟨hk, hv⟩ := Prod.mk.injEq .. ▸ h1.symm
      simp [alistGet, hk.symm, hv.symm]
    · have hka : ¬k = a := by
        intro hh
        exact hn.1 (hh ▸ List.mem_map_of_mem Prod.fst h1)
      simp [alistGet, if_neg hka, ih hn.2 h1]

theorem presentsSpec_eq_zero {cs : List Citizen} {m : Nat}
    (h : ∀ c ∈ cs, c.birth_date.month = m → c.relatives = []) (rid : Int) :
    presentsSpec cs m rid = 0 := by
  unfold presentsSpec
  apply List.sum_eq_zero
  intro x hx
  obtain ⟨c, hc, hcx⟩ := List.mem_map.mp hx
  by_cases hm : c.birth_date.month = m
  · rw [← hcx, if_pos hm, h c hc hm]
    rfl
  · rw [← hcx, if_neg hm]

/-- A month none of whose residents has any relative entry keeps its
initial empty list in the normalized representation. -/
theorem rep_month_empty {cs : List Citizen} (hv : monthsValid cs) {m : Nat}
    (hm1 : 1 ≤ m) (hm2 : m ≤ 12)
    (h : ∀ c ∈ cs, c.birth_date.month = m → c.relatives = []) :
    alistGet (get_birthdays_representation (get_birthdays_data cs)) (toString m) =
      some [] := by
  rw [alistGet_rep hv hm1 hm2]
  have hinner : (alistGet (get_birthdays_data cs) m).getD [] = [] := by
    apply eq_nil_of_alistGet_eq_none
    intro rid
    have := innerGet_get_birthdays_data cs m rid
    rw [presentsSpec_eq_zero h rid] at this
    simpa [innerGet] using this
  rw [hinner]
  rfl

theorem inner_nodup_keys (cs : List Citizen) (m : Nat) :
    ((((alistGet (get_birthdays_data cs) m).getD []).map Prod.fst)).Nodup := by
  rcases hget : alistGet (get_birthdays_data cs) m with _ | inner
  · simp
  · exact ((bdataOK_get_birthdays_data cs).2 (m, inner)
      (mem_of_alistGet_eq_some hget)).1

theorem inner_alistGet_eq_innerGet (cs : List Citizen) (m : Nat) (rid : Int) :
    alistGet ((alistGet (get_birthdays_data cs) m).getD []) rid =
      innerGet (get_birthdays_data cs) m rid := rfl

end MoreHelpers

section MonthKeyHelpers

theorem exists_month_of_mem_keys {k : String}
    (hk : k ∈ (["1", "2", "3", "4", "5", "6", "7", "8", "9", "10", "11", "12"] :
      List String)) :
    ∃ m, (1 ≤ m ∧ m ≤ 12) ∧ toString m = k := by
  fin_cases hk
  · exact ⟨1, by decide, by decide⟩
  · exact ⟨2, by decide, by decide⟩
  · exact ⟨3, by decide, by decide⟩
  · exact ⟨4, by decide, by decide⟩
  · exact ⟨5, by decide, by decide⟩
  · exact ⟨6, by decide, by decide⟩
  · exact ⟨7, by decide, by decide⟩
  · exact ⟨8, by decide, by decide⟩
  · exact ⟨9, by decide, by decide⟩
  · exact ⟨10, by decide, by decide⟩
  · exact ⟨11, by decide, by decide⟩
  · exact ⟨12, by decide, by decide⟩

end MonthKeyHelpers

section Claims

/-- C2: for the two concrete residents `{id 1, birth 2000-03-05,
relatives [2, 3]}` and `{id 4, birth 2001-03-20, relatives [2]}`, the
composition of `_get_birthdays_data` and `_get_birthdays_representation`
maps month "3" to the pairs `{citizen_id 2, presents 2}` and
`{citizen_id 3, presents 1}` (up to order) and every other month key
"1".."12" to the empty list. -/
theorem claim_C2 :
    ((alistGet (get_birthdays_representation (get_birthdays_data
        [⟨1, ⟨2000, 3, 5⟩, [2, 3]⟩, ⟨4, ⟨2001, 3, 20⟩, [2]⟩])) "3").getD []).Perm
      [⟨2, 2⟩, ⟨3, 1⟩] ∧
    ∀ k ∈ (["1", "2", "4", "5", "6", "7", "8", "9", "10", "11", "12"] :
        List String),
      alistGet (get_birthdays_representation (get_birthdays_data
        [⟨1, ⟨2000, 3, 5⟩, [2, 3]⟩, ⟨4, ⟨2001, 3, 20⟩, [2]⟩])) k = some [] := by
  decide

/-- C3: the count stored by `_get_birthdays_data` for month `m` and
relative `rid` is exactly the number of (resident, relative-entry)
increments the spec prescribes, duplicates counted separately; and every
`{citizen_id, presents}` pair reported under month `m` in the normalized
representation carries exactly that count for its citizen. -/
theorem claim_C3 (cs : List Citizen) (m : Nat) (rid : Int)
    (hv : monthsValid cs) (hm1 : 1 ≤ m) (hm2 : m ≤ 12) :
    (innerGet (get_birthdays_data cs) m rid).getD 0 = presentsSpec cs m rid ∧
    ∀ p ∈ (alistGet (get_birthdays_representation (get_birthdays_data cs))
        (toString m)).getD [],
      p.presents = presentsSpec cs m p.citizen_id := by
  constructor
  · exact getD_innerGet_get_birthdays_data cs m rid
  · intro p hp
    rw [alistGet_rep hv hm1 hm2] at hp
    simp only [Option.getD_some] at hp
    obtain ⟨q, hq, hqp⟩ := List.mem_map.mp hp
    have hsome : alistGet ((alistGet (get_birthdays_data cs) m).getD []) q.1 =
        some q.2 :=
      alistGet_eq_some_of_mem_of_nodup (inner_nodup_keys cs m)
        (Prod.mk.eta ▸ hq)
    rw [inner_alistGet_eq_innerGet, innerGet_get_birthdays_data] at hsome
    by_cases hz : presentsSpec cs m q.1 = 0
    · rw [if_pos hz] at hsome
      exact absurd hsome (by simp)
    · rw [if_neg hz] at hsome
      rw [← hqp]
      show q.2 = presentsSpec cs m q.1
      exact (Option.some_inj.mp hsome).symm

/-- C3 witness: the theorem applied to the concrete two-resident input
at month 3 and relative 2. -/
theorem claim_C3_witness :
    (monthsValid [⟨1, ⟨2000, 3, 5⟩, [2, 3]⟩, ⟨4, ⟨2001, 3, 20⟩, [2]⟩] ∧
      1 ≤ 3 ∧ 3 ≤ 12) ∧
    ((innerGet (get_birthdays_data
        [⟨1, ⟨2000, 3, 5⟩, [2, 3]⟩, ⟨4, ⟨2001, 3, 20⟩, [2]⟩]) 3 2).getD 0 =
      presentsSpec [⟨1, ⟨2000, 3, 5⟩, [2, 3]⟩, ⟨4, ⟨2001, 3, 20⟩, [2]⟩] 3 2 ∧
    ∀ p ∈ (alistGet (get_birthdays_representation (get_birthdays_data
        [⟨1, ⟨2000, 3, 5⟩, [2, 3]⟩, ⟨4, ⟨2001, 3, 20⟩, [2]⟩])) (toString 3)).getD [],
      p.presents = presentsSpec
        [⟨1, ⟨2000, 3, 5⟩, [2, 3]⟩, ⟨4, ⟨2001, 3, 20⟩, [2]⟩] 3 p.citizen_id) :=
  ⟨⟨by decide, by decide, by decide⟩,
    claim_C3 [⟨1, ⟨2000, 3, 5⟩, [2, 3]⟩, ⟨4, ⟨2001, 3, 20⟩, [2]⟩] 3 2
      (by decide) (by decide) (by decide)⟩

/-- C4: for every resident list with valid birth months (as Python's
date type guarantees), the normalized output has exactly the twelve
month keys "1".."12", and a month with no contributing resident/relative
entry is mapped to the empty list. -/
theorem claim_C4 (cs : List Citizen) (hv : monthsValid cs) :
    (get_birthdays_representation (get_birthdays_data cs)).map Prod.fst =
      ["1", "2", "3", "4", "5", "6", "7", "8", "9", "10", "11", "12"] ∧
    ∀ m, 1 ≤ m → m ≤ 12 →
      (∀ c ∈ cs, c.birth_date.month = m → c.relatives = []) →
      alistGet (get_birthdays_representation (get_birthdays_data cs)) (toString m) =
        some [] :=
  ⟨keys_rep hv, fun _ h1 h2 h3 => rep_month_empty hv h1 h2 h3⟩

/-- C4 witness: the theorem applied to a single March resident, checking
that month 4 is empty and all twelve keys are present. -/
theorem claim_C4_witness :
    monthsValid [⟨1, ⟨2000, 3, 5⟩, [2, 3]⟩] ∧
    alistGet (get_birthdays_representation (get_birthdays_data
      [⟨1, ⟨2000, 3, 5⟩, [2, 3]⟩])) (toString 4) = some [] :=
  ⟨by decide,
    (claim_C4 [⟨1, ⟨2000, 3, 5⟩, [2, 3]⟩] (by decide)).2 4
      (by decide) (by decide) (by decide)⟩

/-- C10: every `{citizen_id, presents}` pair in the normalized output
has `presents ≥ 1` (entries are only created by increments, which start
at 1), and a month whose residents have no relative entries is still the
empty list. -/
theorem claim_C10 (cs : List Citizen) :
    (∀ k l, alistGet (get_birthdays_representation (get_birthdays_data cs)) k =
        some l → ∀ p ∈ l, 1 ≤ p.presents) ∧
    (monthsValid cs → ∀ m, 1 ≤ m → m ≤ 12 →
      (∀ c ∈ cs, c.birth_date.month = m → c.relatives = []) →
      alistGet (get_birthdays_representation (get_birthdays_data cs)) (toString m) =
        some []) := by
  constructor
  · intro k l hk p hp
    have hmem := mem_of_alistGet_eq_some hk
    rw [get_birthdays_representation] at hmem
    rcases mem_rep_fold hmem with h1 | h1
    · obtain ⟨i, hi, hkl⟩ := List.mem_map.mp h1
      cases hkl
      simp at hp
    · obtain ⟨q, hq, hkl⟩ := h1
      have hl : l = q.2.map (fun r => GiftPair.mk r.1 r.2) := congrArg Prod.snd hkl
      rw [hl] at hp
      obtain ⟨r, hr, hrp⟩ := List.mem_map.mp hp
      rw [← hrp]
      exact ((bdataOK_get_birthdays_data cs).2 q hq).2 r hr
  · intro hv m h1 h2 h3
    exact rep_month_empty hv h1 h2 h3

/-- C10 witness: the theorem applied to the two-resident input; the pair
`{citizen_id 2, presents 2}` listed under month "3" has a positive
count. -/
theorem claim_C10_witness :
    (alistGet (get_birthdays_representation (get_birthdays_data
        [⟨1, ⟨2000, 3, 5⟩, [2, 3]⟩, ⟨4, ⟨2001, 3, 20⟩, [2]⟩])) "3" =
      some [⟨2, 2⟩, ⟨3, 1⟩]) ∧
    1 ≤ (GiftPair.mk 2 2).presents :=
  ⟨by decide,
    (claim_C10 [⟨1, ⟨2000, 3, 5⟩, [2, 3]⟩, ⟨4, ⟨2001, 3, 20⟩, [2]⟩]).1 "3"
      [⟨2, 2⟩, ⟨3, 1⟩] (by decide) ⟨2, 2⟩ (by decide)⟩

/-- C5: the aggregation is order-independent — permuting the resident
list leaves the collection of `{citizen_id, presents}` pairs under every
month key invariant up to order. -/
theorem claim_C5 (cs cs' : List Citizen) (hp : cs.Perm cs') (hv : monthsValid cs)
    (k : String) :
    ((alistGet (get_birthdays_representation (get_birthdays_data cs)) k).getD []).Perm
      ((alistGet (get_birthdays_representation (get_birthdays_data cs')) k).getD []) := by
  have hv' : monthsValid cs' := fun c hc => hv c (hp.mem_iff.mpr hc)
  by_cases hk : k ∈ (["1", "2", "3", "4", "5", "6", "7", "8", "9", "10", "11", "12"] :
      List String)
  · obtain ⟨m, ⟨hm1, hm2⟩, hmk⟩ := exists_month_of_mem_keys hk
    rw [← hmk, alistGet_rep hv hm1 hm2, alistGet_rep hv' hm1 hm2]
    simp only [Option.getD_some]
    apply List.Perm.map
    apply perm_of_nodup_keys_alistGet_eq (inner_nodup_keys cs m) (inner_nodup_keys cs' m)
    intro rid
    rw [inner_alistGet_eq_innerGet, inner_alistGet_eq_innerGet,
      innerGet_get_birthdays_data, innerGet_get_birthdays_data,
      presentsSpec_perm hp m rid]
  · have h1 : alistGet (get_birthdays_representation (get_birthdays_data cs)) k =
        none := by
      rw [alistGet_eq_none_iff, keys_rep hv]
      exact hk
    have h2 : alistGet (get_birthdays_representation (get_birthdays_data cs')) k =
        none := by
      rw [alistGet_eq_none_iff, keys_rep hv']
      exact hk
    rw [h1, h2]

/-- C5 witness: the theorem applied to the two-resident input and its
reversal, at month key "3". -/
theorem claim_C5_witness :
    (([⟨1, ⟨2000, 3, 5⟩, [2, 3]⟩, ⟨4, ⟨2001, 3, 20⟩, [2]⟩] : List Citizen).Perm
        [⟨4, ⟨2001, 3, 20⟩, [2]⟩, ⟨1, ⟨2000, 3, 5⟩, [2, 3]⟩] ∧
      monthsValid [⟨1, ⟨2000, 3, 5⟩, [2, 3]⟩, ⟨4, ⟨2001, 3, 20⟩, [2]⟩]) ∧
    ((alistGet (get_birthdays_representation (get_birthdays_data
        [⟨1, ⟨2000, 3, 5⟩, [2, 3]⟩, ⟨4, ⟨2001, 3, 20⟩, [2]⟩])) "3").getD []).Perm
      ((alistGet (get_birthdays_representation (get_birthdays_data
        [⟨4, ⟨2001, 3, 20⟩, [2]⟩, ⟨1, ⟨2000, 3, 5⟩, [2, 3]⟩])) "3").getD []) :=
  ⟨⟨by decide, by decide⟩,
    claim_C5 [⟨1, ⟨2000, 3, 5⟩, [2, 3]⟩, ⟨4, ⟨2001, 3, 20⟩, [2]⟩]
      [⟨4, ⟨2001, 3, 20⟩, [2]⟩, ⟨1, ⟨2000, 3, 5⟩, [2, 3]⟩]
      (by decide) (by decide) "3"⟩

/-- C1: when the dataset exists, `n + 1` sequential calls of
`get_birthdays` all return the first call's result, the store is exactly
the first call's store from then on, and at most one cache record is
ever inserted across all calls. -/
theorem claim_C1 (import_id : Int) (pid : String) (db : DB) (cs : List Citizen)
    (h : alistGet db.imports import_id = some cs) (n : Nat) :
    (∀ r ∈ (runGetBirthdays import_id pid (n + 1) db).1,
      r = (get_birthdays import_id pid db).result) ∧
    (runGetBirthdays import_id pid (n + 1) db).2 = (get_birthdays import_id pid db).db ∧
    (runGetBirthdays import_id pid (n + 1) db).2.birthdays.length ≤
      db.birthdays.length + 1 := by
  obtain ⟨v, hr, hcached⟩ := get_birthdays_cached_after h pid
  have hsucc : runGetBirthdays import_id pid (n + 1) db =
      ((get_birthdays import_id pid db).result ::
          List.replicate n (Except.ok (v, 201)),
        (get_birthdays import_id pid db).db) := by
    rw [runGetBirthdays]
    simp only [runGetBirthdays_cached hcached pid n]
  refine ⟨?_, ?_, ?_⟩
  · intro r hrm
    rw [hsucc] at hrm
    rcases List.mem_cons.mp hrm with h1 | h1
    · exact h1
    · rw [List.eq_of_mem_replicate h1, hr]
  · rw [hsucc]
  · rw [hsucc]
    rcases get_birthdays_db_cases import_id pid db with hdb | ⟨cs2, _, hdb⟩
    · rw [hdb]
      show db.birthdays.length ≤ db.birthdays.length + 1
      omega
    · rw [hdb]
      show (_cache_birthdays_data import_id
          (get_birthdays_representation (get_birthdays_data cs2)) db).birthdays.length ≤
        db.birthdays.length + 1
      simp [_cache_birthdays_data]

/-- C1 witness: the theorem applied to a store holding dataset 1 with one
resident, for three sequential calls. -/
theorem claim_C1_witness :
    (alistGet (DB.mk [(1, [⟨1, ⟨2000, 3, 5⟩, [2]⟩])] []).imports 1 =
      some [⟨1, ⟨2000, 3, 5⟩, [2]⟩]) ∧
    ((∀ r ∈ (runGetBirthdays 1 "p" (2 + 1) ⟨[(1, [⟨1, ⟨2000, 3, 5⟩, [2]⟩])], []⟩).1,
      r = (get_birthdays 1 "p" ⟨[(1, [⟨1, ⟨2000, 3, 5⟩, [2]⟩])], []⟩).result) ∧
    (runGetBirthdays 1 "p" (2 + 1) ⟨[(1, [⟨1, ⟨2000, 3, 5⟩, [2]⟩])], []⟩).2 =
      (get_birthdays 1 "p" ⟨[(1, [⟨1, ⟨2000, 3, 5⟩, [2]⟩])], []⟩).db ∧
    (runGetBirthdays 1 "p" (2 + 1) ⟨[(1, [⟨1, ⟨2000, 3, 5⟩, [2]⟩])], []⟩).2.birthdays.length ≤
      (DB.mk [(1, [⟨1, ⟨2000, 3, 5⟩, [2]⟩])] []).birthdays.length + 1) :=
  ⟨by decide,
    claim_C1 1 "p" ⟨[(1, [⟨1, ⟨2000, 3, 5⟩, [2]⟩])], []⟩ [⟨1, ⟨2000, 3, 5⟩, [2]⟩]
      (by decide) 2⟩

/-- C6: for an import id with no stored dataset and no cached aggregate,
`get_birthdays` fails with `NotFound` and leaves the database — in
particular the birthdays store — exactly as it was. -/
theorem claim_C6 (import_id : Int) (pid : String) (db : DB)
    (hc : alistGet db.birthdays import_id = none)
    (hi : alistGet db.imports import_id = none) :
    (get_birthdays import_id pid db).result = Except.error Err.NotFound ∧
      (get_birthdays import_id pid db).db = db := by
  rw [get_birthdays_result_eq, get_birthdays_db_eq]
  unfold get_birthdays_body get_citizens _get_cached_birthdays
  rw [hc, hi]
  exact ⟨rfl, rfl⟩

/-- C6 witness: the theorem applied to the empty database at import id 5. -/
theorem claim_C6_witness :
    (alistGet (DB.mk [] []).birthdays 5 = none ∧
      alistGet (DB.mk [] []).imports 5 = none) ∧
    ((get_birthdays 5 "p" ⟨[], []⟩).result = Except.error Err.NotFound ∧
      (get_birthdays 5 "p" ⟨[], []⟩).db = ⟨[], []⟩) :=
  ⟨⟨by decide, by decide⟩, claim_C6 5 "p" ⟨[], []⟩ (by decide) (by decide)⟩

/-- C7: every execution of `get_birthdays` acquires the lease on
`str(import_id)` first and the lease on `"birthdays_" + import_id`
second, each with ttl 60 and timeout 10, and releases both in reverse
order on every exit path (the lock-event trace is the same on the cache
hit, fresh computation and error paths alike). -/
theorem claim_C7 (import_id : Int) (pid : String) (db : DB) :
    (get_birthdays import_id pid db).events =
      [Ev.acquire (toString import_id) pid 60 10,
       Ev.acquire ("birthdays_" ++ toString import_id) pid 60 10,
       Ev.release ("birthdays_" ++ toString import_id),
       Ev.release (toString import_id)] := by
  simp [get_birthdays, withLock, get_birthdays_body_events]

/-- C9: every successful call of `get_birthdays` — cache hit or fresh
computation — returns status code 201. -/
theorem claim_C9 (import_id : Int) (pid : String) (db : DB) (rep : Rep) (code : Nat)
    (h : (get_birthdays import_id pid db).result = Except.ok (rep, code)) :
    code = 201 := by
  rw [get_birthdays_result_eq] at h
  unfold get_birthdays_body at h
  rcases hc : _get_cached_birthdays import_id db with _ | v
  · rw [hc] at h
    rcases hy : get_citizens import_id db with e | cs <;> rw [hy] at h <;> simp at h
    exact h.2.symm
  · rw [hc] at h
    simp at h
    exact h.2.symm

/-- C9 witness: the theorem applied to a successful fresh computation on
a store holding an empty dataset. -/
theorem claim_C9_witness :
    ((get_birthdays 1 "p" ⟨[(1, [])], []⟩).result =
      Except.ok (months0, 201)) ∧ 201 = 201 :=
  ⟨by decide, claim_C9 1 "p" ⟨[(1, [])], []⟩ months0 201 (by decide)⟩

/-- C8: if every dataset in the store has valid birth months and every
record already in the birthdays store is a complete normalized
twelve-month structure, then after any `get_birthdays` call every record
in the birthdays store is still a complete normalized twelve-month
structure — normalization happens strictly before the single insert. -/
theorem claim_C8 (import_id : Int) (pid : String) (db : DB)
    (hv : importsValid db) (hinv : ∀ p ∈ db.birthdays, normalizedRep p.2) :
    ∀ p ∈ (get_birthdays import_id pid db).db.birthdays, normalizedRep p.2 := by
  rcases get_birthdays_db_cases import_id pid db with hdb | ⟨cs, hcs, hdb⟩
  · rw [hdb]
    exact hinv
  · rw [hdb]
    intro p hp
    rcases List.mem_append.mp hp with h1 | h1
    · exact hinv p h1
    · have hpe : p = (import_id,
          get_birthdays_representation (get_birthdays_data cs)) := by
        simpa using h1
      rw [hpe]
      show normalizedRep (get_birthdays_representation (get_birthdays_data cs))
      unfold normalizedRep
      exact keys_rep (hv (import_id, cs) (mem_of_alistGet_eq_some hcs))

/-- C8 witness: the theorem applied to a store holding one valid dataset
and an empty birthdays store; after the call every stored record is
normalized. -/
theorem claim_C8_witness :
    (importsValid ⟨[(1, [⟨1, ⟨2000, 3, 5⟩, [2]⟩])], []⟩ ∧
      ∀ p ∈ (DB.mk [(1, [⟨1, ⟨2000, 3, 5⟩, [2]⟩])] []).birthdays, normalizedRep p.2) ∧
    ∀ p ∈ (get_birthdays 1 "p" ⟨[(1, [⟨1, ⟨2000, 3, 5⟩, [2]⟩])], []⟩).db.birthdays,
      normalizedRep p.2 :=
  ⟨⟨by decide, by decide⟩,
    claim_C8 1 "p" ⟨[(1, [⟨1, ⟨2000, 3, 5⟩, [2]⟩])], []⟩ (by decide) (by decide)⟩

end Claims

end Birthdays
